import Mathlib

/-!
Shallow embedding of `plotext/_utility/bar.py`: the bar/histogram core
(label resolver, axis limit calculator, bar geometry generator, histogram
binner).  Python lists become Lean lists, numbers become `ℚ`, the label
registry (a Python dict from label to position) becomes an association
list kept in insertion order, and operations that can raise a Python
exception (`ZeroDivisionError`, `IndexError`) return `Option`.
-/

namespace Plotext

/-- A Python value appearing in a bar x-sequence: a number or a string. -/
inductive PyVal where
  | num (q : ℚ)
  | str (s : String)
deriving DecidableEq, Repr

/-- `type(el) == str` test from `update_bars`. -/
def PyVal.isStr : PyVal → Bool
  | .num _ => false
  | .str _ => true

/-- Python `str(el)` applied to a bar x-value (`list(map(str, x))`). -/
def pyStr : PyVal → String
  | .num q => toString q
  | .str s => s

/-- The bar registry: Python's dict of bar label to coordinate, in
insertion order. -/
abbrev Registry := List (String × ℕ)

/-- Dict lookup `bars[el]` / membership test `el in bars`: first matching
key. -/
def regFind? : Registry → String → Option ℕ
  | [], _ => none
  | (k, v) :: rest, s => if k = s then some v else regFind? rest s

/-- One iteration of the loop body in `update_bars`: if the label is in
the dict reuse its coordinate, otherwise assign `len(bars) + 1` and
insert (`bars.update({el: i})` appends the new key). -/
def resolveOne (r : Registry) (el : String) : ℕ × Registry :=
  match regFind? r el with
  | some p => (p, r)
  | none => (r.length + 1, r ++ [(el, r.length + 1)])

/-- The `for el in xlabels` loop of `update_bars`, threading the dict. -/
def resolveFold : List String → Registry → List ℕ × Registry
  | [], r => ([], r)
  | el :: rest, r =>
    let pr := resolveOne r el
    let qs := resolveFold rest pr.2
    (pr.1 :: qs.1, qs.2)

/-- Modelled from the spec: `get_labels(x, "linear")` lives in
`plotext._utility.plot`, which is not among the provided sources.  Spec
§4.1: for a numeric series, "display labels are the values' canonical
numeric-axis tick labels"; modelled as each value's string form. -/
def get_labels (x : List PyVal) : List String := x.map pyStr

/-- `update_bars(x, bars, offset)` from `bar.py`.  If no element is a
string the input coordinates pass through untouched; otherwise every
element's string form is resolved through the registry.  The `offset`
parameter is accepted and unused, as in the source.  Returns
`(x, xlabels, labelled, bars)`. -/
def update_bars (x : List PyVal) (bars : Registry) (_offset : ℚ) :
    List PyVal × List String × Bool × Registry :=
  let labelled := x.any PyVal.isStr
  if labelled then
    let xlabels := x.map pyStr
    let r := resolveFold xlabels bars
    (r.1.map (fun n => PyVal.num n), xlabels, labelled, r.2)
  else
    (x, get_labels x, labelled, bars)

/-- Well-formed registry: coordinates are `1, 2, ..., size` in insertion
order and keys are distinct (as in a Python dict). -/
def RegWF (r : Registry) : Prop :=
  r.map Prod.snd = List.range' 1 r.length ∧ (r.map Prod.fst).Nodup

/-- `update_bar_xlim(y)`: drop `None` entries, return
`[min(y, default=None), max(y, default=None)]`. -/
def update_bar_xlim (y : List (Option ℚ)) : Option ℚ × Option ℚ :=
  let ys := y.filterMap id
  (ys.min?, ys.max?)

/-- `update_bar_ylim(y)`: base limits; when both bounds are present the
lower one is shrunk by `(max - min) / 20` provided the result stays
strictly positive. -/
def update_bar_ylim (y : List (Option ℚ)) : Option ℚ × Option ℚ :=
  let bl := update_bar_xlim y
  match bl with
  | (some lo, some hi) =>
    let delta := (hi - lo) / 20
    (some (if lo - delta > 0 then lo - delta else lo), some hi)
  | _ => bl

/-- Python `min` of a nonempty list (junk value on `[]`, never used:
callers guard non-emptiness). -/
def pymin : List ℚ → ℚ
  | [] => 0
  | a :: as => as.foldl min a

/-- Python `max` of a nonempty list (junk value on `[]`, never used). -/
def pymax : List ℚ → ℚ
  | [] => 0
  | a :: as => as.foldl max a

/-- The `for i in range(bins)` loop of `bars`: walks the centers,
reading `y[i]` in step; `IndexError` (heights exhausted before centers)
is `none`.  Heights beyond the centers are never read. -/
def barsLoop (half minimum : ℚ) :
    List ℚ → List ℚ → Option (List (List ℚ) × List (List ℚ))
  | [], _ => some ([], [])
  | _ :: _, [] => none
  | xi :: xs, yi :: ys =>
    match barsLoop half minimum xs ys with
    | none => none
    | some (xbar, ybar) =>
      some ([xi - half, xi - half, xi + half, xi + half, xi - half] :: xbar,
            [minimum, yi, yi, minimum, minimum] :: ybar)

/-- `bars(x, y, width, minimum)` from `bar.py`: empty centers short
circuit to empty output; a single bar makes
`(max(x) - min(x)) / (bins - 1)` a `ZeroDivisionError` (`none`);
otherwise one shared half width serves every bar. -/
def bars (x y : List ℚ) (width minimum : ℚ) :
    Option (List (List ℚ) × List (List ℚ)) :=
  if x = [] then some ([], [])
  else if (x.length : ℚ) - 1 = 0 then none
  else
    let half := (pymax x - pymin x) / ((x.length : ℚ) - 1) * width / 2
    barsLoop half minimum x y

/-- Python `int()`: truncation toward zero. -/
def pyInt (q : ℚ) : ℤ := if q < 0 then -⌊-q⌋ else ⌊q⌋

/-- Modelled from the spec: `linspace` lives in
`plotext._utility.data`, which is not among the provided sources.  Spec
§4.4: "`bins` evenly spaced values between `m` and `M` inclusive
(linear spacing)". -/
def linspace (lo hi : ℚ) (n : ℕ) : List ℚ :=
  if n ≤ 1 then List.replicate n lo
  else (List.range n).map (fun i => lo + (hi - lo) * i / ((n : ℚ) - 1))

/-- Python `histy[el] += 1` with an integer index: negative indices wrap
from the end, out-of-range indices raise `IndexError` (`none`). -/
def listIncr (l : List ℕ) (i : ℤ) : Option (List ℕ) :=
  let j : ℤ := if i < 0 then i + l.length else i
  if 0 ≤ j ∧ j < (l.length : ℤ) then
    some (l.set j.toNat (l.getD j.toNat 0 + 1))
  else none

/-- The counting loop of `hist_data`. -/
def histCount (idxs : List ℤ) (histy : List ℕ) : Option (List ℕ) :=
  match idxs with
  | [] => some histy
  | i :: rest =>
    match listIncr histy i with
    | none => none
    | some h => histCount rest h

/-- The normalisation comprehension of `hist_data`:
`(el - m) / (M - m) * bins if el != M else bins - 1`; the division is
only evaluated when `el != M`, and divides by zero (`none`) when
`M - m = 0` there. -/
def histNorm (m M : ℚ) (bins : ℕ) : List ℚ → Option (List ℚ)
  | [] => some []
  | el :: rest =>
    match (if el = M then some ((bins : ℚ) - 1)
           else if M - m = 0 then none
           else some ((el - m) / (M - m) * (bins : ℚ))) with
    | none => none
    | some v =>
      match histNorm m M bins rest with
      | none => none
      | some vs => some (v :: vs)

/-- `hist_data(data, bins)` from `bar.py`. -/
def hist_data (data : List ℚ) (bins : ℕ) : Option (List ℚ × List ℕ) :=
  if data = [] then some ([], [])
  else
    let m := pymin data
    let M := pymax data
    match histNorm m M bins data with
    | none => none
    | some d1 =>
      let d2 := d1.map pyInt
      let histx := linspace m M bins
      match histCount d2 (List.replicate bins 0) with
      | none => none
      | some histy => some (histx, histy)

/-! ### Registry lemmas (label resolver) -/

theorem regFind?_append_of_some (r t : Registry) (s : String) (p : ℕ)
    (h : regFind? r s = some p) : regFind? (r ++ t) s = some p := by
  induction r with
  | nil => simp [regFind?] at h
  | cons kv rest ih =>
    by_cases hk : kv.1 = s
    · simpa [regFind?, hk] using (by simpa [regFind?, hk] using h : kv.2 = p)
    · exact by simpa [regFind?, hk] using ih (by simpa [regFind?, hk] using h)

theorem regFind?_append_of_none (r t : Registry) (s : String)
    (h : regFind? r s = none) : regFind? (r ++ t) s = regFind? t s := by
  induction r with
  | nil => simp
  | cons kv rest ih =>
    by_cases hk : kv.1 = s
    · simp [regFind?, hk] at h
    · exact by simpa [regFind?, hk] using ih (by simpa [regFind?, hk] using h)

theorem regFind?_eq_none_iff (r : Registry) (s : String) :
    regFind? r s = none ↔ s ∉ r.map Prod.fst := by
  induction r with
  | nil => simp [regFind?]
  | cons kv rest ih =>
    by_cases hk : kv.1 = s
    · simp [regFind?, hk]
    · have hk' : ¬ s = kv.1 := fun h => hk h.symm
      simp [regFind?, hk, hk', ih]

theorem resolveOne_extends (r : Registry) (el : String) :
    ∃ u, (resolveOne r el).2 = r ++ u := by
  unfold resolveOne
  cases h : regFind? r el with
  | some p => exact ⟨[], by simp⟩
  | none => exact ⟨[(el, r.length + 1)], rfl⟩

theorem resolveOne_lookup (r : Registry) (el : String) :
    regFind? (resolveOne r el).2 el = some (resolveOne r el).1 := by
  unfold resolveOne
  cases h : regFind? r el with
  | some p => simpa using h
  | none => simp [regFind?_append_of_none r _ el h, regFind?]

theorem resolveOne_WF (r : Registry) (el : String) (hwf : RegWF r) :
    RegWF (resolveOne r el).2 := by
  unfold resolveOne
  cases h : regFind? r el with
  | some p => exact hwf
  | none =>
    obtain ⟨hsnd, hfst⟩ := hwf
    constructor
    · simp only [List.map_append, List.length_append, hsnd]
      simp [List.range'_concat, Nat.add_comm]
    · simp only [List.map_append, List.nodup_append]
      refine ⟨hfst, by simp, ?_⟩
      intro a ha hb
      simp at hb
      exact (regFind?_eq_none_iff r el).mp h (hb ▸ ha)

theorem resolveFold_extends (ls : List String) :
    ∀ r : Registry, ∃ t, (resolveFold ls r).2 = r ++ t := by
  induction ls with
  | nil => exact fun r => ⟨[], by simp [resolveFold]⟩
  | cons el rest ih =>
    intro r
    obtain ⟨u, hu⟩ := resolveOne_extends r el
    obtain ⟨t, ht⟩ := ih (resolveOne r el).2
    refine ⟨u ++ t, ?_⟩
    show (resolveFold rest (resolveOne r el).2).2 = r ++ (u ++ t)
    rw [ht, hu, List.append_assoc]

theorem resolveFold_WF (ls : List String) :
    ∀ r : Registry, RegWF r → RegWF (resolveFold ls r).2 := by
  induction ls with
  | nil => exact fun r h => h
  | cons el rest ih =>
    intro r hwf
    exact by simpa [resolveFold] using ih _ (resolveOne_WF r el hwf)

theorem resolveFold_length (ls : List String) :
    ∀ r : Registry, (resolveFold ls r).1.length = ls.length := by
  induction ls with
  | nil => intro r; rfl
  | cons el rest ih => intro r; simp [resolveFold, ih]

theorem resolveFold_lookup (ls : List String) :
    ∀ (r : Registry) (i : ℕ), i < ls.length →
      regFind? (resolveFold ls r).2 (ls.getD i "") =
        some ((resolveFold ls r).1.getD i 0) := by
  induction ls with
  | nil => intro r i hi; simp at hi
  | cons el rest ih =>
    intro r i hi
    cases i with
    | zero =>
      obtain ⟨t, ht⟩ := resolveFold_extends rest (resolveOne r el).2
      simp only [resolveFold, List.getD_cons_zero, ht]
      exact regFind?_append_of_some _ t el _ (resolveOne_lookup r el)
    | succ i =>
      simp only [resolveFold, List.getD_cons_succ]
      exact ih (resolveOne r el).2 i (by simpa using hi)

theorem regWF_getD (r : Registry) (hwf : RegWF r) (j : ℕ) (hj : j < r.length) :
    (r.getD j ("", 0)).2 = j + 1 := by
  have hm : (r.map Prod.snd).getD j 0 = (List.range' 1 r.length).getD j 0 := by
    rw [hwf.1]
  have hj' : j < (r.map Prod.snd).length := by simpa using hj
  have hj'' : j < (List.range' 1 r.length).length := by simpa using hj
  rw [List.getD_eq_getElem?_getD, List.getElem?_eq_getElem hj',
      List.getElem_map] at hm
  rw [List.getD_eq_getElem?_getD, List.getElem?_eq_getElem hj'',
      List.getElem_range'] at hm
  rw [List.getD_eq_getElem?_getD, List.getElem?_eq_getElem hj]
  simpa [Nat.add_comm] using hm

/-- Claim C1: on a labelled batch with a well-formed registry,
`update_bars` resolves each label through the registry — a label already
present keeps its previously stored position (the registry grows only by
appending, so no stored position ever changes), the final registry is
again well formed (positions are exactly `1..size` in first-seen order,
no gaps, no duplicates, so every newly inserted label received the
registry size immediately before its insertion plus 1), and every
resolved coordinate is the final registry's position of the
corresponding label. -/
theorem update_bars_labelled_registry (x : List PyVal) (r : Registry)
    (off : ℚ) (hwf : RegWF r) (hlab : x.any PyVal.isStr = true) :
    ∃ (coords : List ℕ) (r' : Registry),
      update_bars x r off = (coords.map PyVal.num, x.map pyStr, true, r') ∧
      (∃ t, r' = r ++ t) ∧
      RegWF r' ∧
      (∀ l p, regFind? r l = some p → regFind? r' l = some p) ∧
      coords.length = x.length ∧
      (∀ i, i < x.length →
        regFind? r' ((x.map pyStr).getD i "") = some (coords.getD i 0)) ∧
      (∀ j, j < r'.length → (r'.getD j ("", 0)).2 = j + 1) := by
  refine ⟨(resolveFold (x.map pyStr) r).1, (resolveFold (x.map pyStr) r).2,
    ?_, ?_, ?_, ?_, ?_, ?_, ?_⟩
  · simp [update_bars, hlab]
  · exact resolveFold_extends (x.map pyStr) r
  · exact resolveFold_WF (x.map pyStr) r hwf
  · intro l p hp
    obtain ⟨t, ht⟩ := resolveFold_extends (x.map pyStr) r
    rw [ht]
    exact regFind?_append_of_some r t l p hp
  · simpa using resolveFold_length (x.map pyStr) r
  · intro i hi
    exact resolveFold_lookup (x.map pyStr) r i (by simpa using hi)
  · exact fun j hj => regWF_getD _ (resolveFold_WF (x.map pyStr) r hwf) j hj

/-- Witness for C1 at the spec scenario
`resolveLabels(["a","b","a","c"], {})`. -/
theorem update_bars_labelled_registry_witness :
    ∃ (coords : List ℕ) (r' : Registry),
      update_bars [PyVal.str "a", PyVal.str "b", PyVal.str "a", PyVal.str "c"]
          [] 0 =
        (coords.map PyVal.num,
         ([PyVal.str "a", PyVal.str "b", PyVal.str "a",
           PyVal.str "c"].map pyStr), true, r') ∧
      (∃ t, r' = [] ++ t) ∧
      RegWF r' ∧
      (∀ l p, regFind? [] l = some p → regFind? r' l = some p) ∧
      coords.length =
        [PyVal.str "a", PyVal.str "b", PyVal.str "a", PyVal.str "c"].length ∧
      (∀ i, i < [PyVal.str "a", PyVal.str "b", PyVal.str "a",
                 PyVal.str "c"].length →
        regFind? r'
          (([PyVal.str "a", PyVal.str "b", PyVal.str "a",
             PyVal.str "c"].map pyStr).getD i "") =
          some (coords.getD i 0)) ∧
      (∀ j, j < r'.length → (r'.getD j ("", 0)).2 = j + 1) :=
  update_bars_labelled_registry
    [PyVal.str "a", PyVal.str "b", PyVal.str "a", PyVal.str "c"] [] 0
    ⟨rfl, List.nodup_nil⟩ rfl

/-- Claim C2: when no element of the input is a string, `update_bars`
returns the input coordinates unchanged, reports the series as not
labelled, and leaves the registry untouched. -/
theorem update_bars_numeric_passthrough (x : List PyVal) (r : Registry)
    (off : ℚ) (hnum : ∀ el ∈ x, el.isStr = false) :
    ∃ xlabels, update_bars x r off = (x, xlabels, false, r) := by
  have h : x.any PyVal.isStr = false := by
    rw [List.any_eq_false]
    intro el hel
    simp [hnum el hel]
  exact ⟨get_labels x, by simp [update_bars, h]⟩

/-- Witness for C2 at a concrete numeric batch and non-empty registry. -/
theorem update_bars_numeric_passthrough_witness :
    ∃ xlabels,
      update_bars [PyVal.num 3, PyVal.num 5] [("a", 1)] 0 =
        ([PyVal.num 3, PyVal.num 5], xlabels, false, [("a", 1)]) :=
  update_bars_numeric_passthrough [PyVal.num 3, PyVal.num 5] [("a", 1)] 0
    (by decide)

/-! ### Axis limit lemmas -/

theorem update_bar_ylim_eq_none (y : List (Option ℚ))
    (h : y.filterMap id = []) : update_bar_ylim y = (none, none) := by
  unfold update_bar_ylim update_bar_xlim
  rw [h]
  rfl

theorem update_bar_ylim_eq_some (y : List (Option ℚ)) (m M : ℚ)
    (hm : (y.filterMap id).min? = some m)
    (hM : (y.filterMap id).max? = some M) :
    update_bar_ylim y =
      (some (if 0 < m - (M - m) / 20 then m - (M - m) / 20 else m),
       some M) := by
  simp only [update_bar_ylim, update_bar_xlim, hm, hM]

/-- Claim C8: `update_bar_ylim` computes (min, max) of the non-missing
values; when both bounds exist the lower one becomes
`min - (max - min) / 20` exactly when that value is strictly positive
and stays the unmodified minimum otherwise; a singleton input keeps its
lower bound unchanged (zero margin); and a positive unmodified minimum
always yields a strictly positive returned lower bound. -/
theorem update_bar_ylim_margin (y : List (Option ℚ)) :
    ((y.filterMap id).min? = none → update_bar_ylim y = (none, none)) ∧
    (∀ m M, (y.filterMap id).min? = some m →
      (y.filterMap id).max? = some M →
      update_bar_ylim y =
        (some (if 0 < m - (M - m) / 20 then m - (M - m) / 20 else m),
         some M)) ∧
    (∀ a, y.filterMap id = [a] → (update_bar_ylim y).1 = some a) ∧
    (∀ m lo, (y.filterMap id).min? = some m → 0 < m →
      (update_bar_ylim y).1 = some lo → 0 < lo) := by
  refine ⟨?_, ?_, ?_, ?_⟩
  · intro h
    exact update_bar_ylim_eq_none y (List.min?_eq_none_iff.mp h)
  · exact fun m M hm hM => update_bar_ylim_eq_some y m M hm hM
  · intro a ha
    have hm : (y.filterMap id).min? = some a := by rw [ha]; rfl
    have hM : (y.filterMap id).max? = some a := by rw [ha]; rfl
    rw [update_bar_ylim_eq_some y a a hm hM]
    have he : a - (a - a) / 20 = a := by ring
    simp only [he, ite_self]
  · intro m lo hm hmpos hlo
    cases hM : (y.filterMap id).max? with
    | none =>
      rw [List.max?_eq_none_iff.mp hM] at hm
      exact absurd hm (by simp)
    | some M =>
      rw [update_bar_ylim_eq_some y m M hm hM] at hlo
      simp only [Option.some.injEq] at hlo
      split_ifs at hlo with h
      · exact hlo ▸ h
      · exact hlo ▸ hmpos

/-- Witness for C8 at `update_bar_ylim([1, None, 5])` and at a
singleton input. -/
theorem update_bar_ylim_margin_witness :
    update_bar_ylim [some 1, none, some 5] =
      (some (if 0 < (1 : ℚ) - ((5 : ℚ) - 1) / 20
             then (1 : ℚ) - ((5 : ℚ) - 1) / 20 else 1), some (5 : ℚ)) ∧
    (update_bar_ylim [some (3 : ℚ)]).1 = some 3 :=
  ⟨(update_bar_ylim_margin [some 1, none, some 5]).2.1 1 5
      (by show ([(1 : ℚ), 5] : List ℚ).min? = some 1; norm_num [List.min?])
      (by show ([(1 : ℚ), 5] : List ℚ).max? = some 5; norm_num [List.max?]),
   (update_bar_ylim_margin [some 3]).2.2.1 3 rfl⟩

/-! ### Bar geometry claims -/

/-- Claim C9: a single-bar x-sequence makes the shared half-width
computation in `bars` divide by zero (`bins - 1 == 0`), so the call
fails instead of returning polygon geometry. -/
theorem bars_single_bar_divide_by_zero (c : ℚ) (y : List ℚ)
    (w mn : ℚ) : bars [c] y w mn = none := by
  simp [bars]

theorem barsLoop_some (half mn : ℚ) :
    ∀ (x y : List ℚ), x.length ≤ y.length →
      ∃ xb yb, barsLoop half mn x y = some (xb, yb) ∧
        xb.length = x.length ∧ yb.length = x.length ∧
        ∀ i, i < x.length →
          xb.getD i [] =
            [x.getD i 0 - half, x.getD i 0 - half, x.getD i 0 + half,
             x.getD i 0 + half, x.getD i 0 - half] ∧
          yb.getD i [] = [mn, y.getD i 0, y.getD i 0, mn, mn] := by
  intro x
  induction x with
  | nil => exact fun y _ => ⟨[], [], rfl, rfl, rfl, fun i hi => by simp at hi⟩
  | cons xi xs ih =>
    intro y hlen
    cases y with
    | nil => simp at hlen
    | cons yi ys =>
      obtain ⟨xb, yb, hloop, hxl, hyl, hcoord⟩ := ih ys (by simpa using hlen)
      refine ⟨[xi - half, xi - half, xi + half, xi + half, xi - half] :: xb,
        [mn, yi, yi, mn, mn] :: yb, ?_, by simp [hxl], by simp [hyl], ?_⟩
      · simp [barsLoop, hloop]
      · intro i hi
        cases i with
        | zero => simp
        | succ i =>
          simp only [List.getD_cons_succ, List.length_cons] at *
          exact hcoord i (by omega)

theorem barsLoop_none (half mn : ℚ) :
    ∀ (x y : List ℚ), y.length < x.length →
      barsLoop half mn x y = none := by
  intro x
  induction x with
  | nil => intro y h; simp at h
  | cons xi xs ih =>
    intro y hlen
    cases y with
    | nil => rfl
    | cons yi ys =>
      have h := ih ys (by simpa using hlen)
      simp [barsLoop, h]

theorem barsLoop_shape (half mn : ℚ) :
    ∀ (x y : List ℚ) (xb yb : List (List ℚ)),
      barsLoop half mn x y = some (xb, yb) →
      xb.length = yb.length ∧
      ∀ i, i < xb.length → ∃ l r t,
        xb.getD i [] = [l, l, r, r, l] ∧
        yb.getD i [] = [mn, t, t, mn, mn] := by
  intro x
  induction x with
  | nil =>
    intro y xb yb h
    cases y <;> simp [barsLoop] at h <;> simp [h.1, h.2]
  | cons xi xs ih =>
    intro y xb yb h
    cases y with
    | nil => simp [barsLoop] at h
    | cons yi ys =>
      simp only [barsLoop] at h
      cases hl : barsLoop half mn xs ys with
      | none => rw [hl] at h; simp at h
      | some p =>
        obtain ⟨xb', yb'⟩ := p
        rw [hl] at h
        simp only [Option.some.injEq, Prod.mk.injEq] at h
        obtain ⟨hx, hy⟩ := h
        obtain ⟨hlen, hsh⟩ := ih ys xb' yb' hl
        subst hx hy
        refine ⟨by simp [hlen], ?_⟩
        intro i hi
        cases i with
        | zero =>
          exact ⟨xi - half, xi + half, yi, by simp, by simp⟩
        | succ i =>
          simp only [List.getD_cons_succ]
          exact hsh i (by simpa using hi)

/-- Claim C7: every polygon pair a successful `bars` call returns is a
closed 5-point rectangle: the x-sequence is `[l, l, r, r, l]` and the
y-sequence `[base, t, t, base, base]`, so the vertices are (left, base),
(left, top), (right, top), (right, base), (left, base) and the first
coordinate pair equals the last. -/
theorem bars_polygon_closure (x y : List ℚ) (w mn : ℚ)
    (xb yb : List (List ℚ)) (h : bars x y w mn = some (xb, yb)) :
    xb.length = yb.length ∧
    ∀ i, i < xb.length → ∃ l r t,
      xb.getD i [] = [l, l, r, r, l] ∧
      yb.getD i [] = [mn, t, t, mn, mn] := by
  unfold bars at h
  split at h
  · simp only [Option.some.injEq, Prod.mk.injEq] at h
    obtain ⟨hx, hy⟩ := h
    subst hx hy
    exact ⟨rfl, fun i hi => by simp at hi⟩
  · split at h
    · simp at h
    · exact barsLoop_shape _ mn x y xb yb h

/-- Witness for C7 at `bars([1,2], [5,7], 1, 0)`. -/
theorem bars_polygon_closure_witness :
    ([[1/2, 1/2, 3/2, 3/2, 1/2], [3/2, 3/2, 5/2, 5/2, 3/2]] :
        List (List ℚ)).length =
      ([[0, 5, 5, 0, 0], [0, 7, 7, 0, 0]] : List (List ℚ)).length ∧
    ∀ i, i < ([[1/2, 1/2, 3/2, 3/2, 1/2], [3/2, 3/2, 5/2, 5/2, 3/2]] :
        List (List ℚ)).length → ∃ l r t,
      ([[1/2, 1/2, 3/2, 3/2, 1/2], [3/2, 3/2, 5/2, 5/2, 3/2]] :
          List (List ℚ)).getD i [] = [l, l, r, r, l] ∧
      ([[0, 5, 5, 0, 0], [0, 7, 7, 0, 0]] :
          List (List ℚ)).getD i [] = [(0 : ℚ), t, t, 0, 0] :=
  bars_polygon_closure [1, 2] [5, 7] 1 0
    [[1/2, 1/2, 3/2, 3/2, 1/2], [3/2, 3/2, 5/2, 5/2, 3/2]]
    [[0, 5, 5, 0, 0], [0, 7, 7, 0, 0]]
    (by norm_num [bars, barsLoop, pymax, pymin]; intro h; simp at h)

/-- Claim C6: with at least two bars and enough heights, `bars` gives
every bar the one shared half-width
`(max(x) - min(x)) / (len(x) - 1) * width / 2`, each x-polygon being
`[xi - h, xi - h, xi + h, xi + h, xi - h]`; and on the concrete input
`bars([1,2,3], [5,7,2], 0.8, 0)` the half-width is `2/5` and the first
polygon's x-sequence is `[3/5, 3/5, 7/5, 7/5, 3/5]`
(i.e. `[0.6, 0.6, 1.4, 1.4, 0.6]`). -/
theorem bars_shared_half_width :
    (∀ (x y : List ℚ) (w mn : ℚ), 2 ≤ x.length →
      x.length ≤ y.length →
      ∃ xb yb, bars x y w mn = some (xb, yb) ∧
        xb.length = x.length ∧
        ∀ i, i < x.length →
          xb.getD i [] =
            [x.getD i 0 - (pymax x - pymin x) / ((x.length : ℚ) - 1) * w / 2,
             x.getD i 0 - (pymax x - pymin x) / ((x.length : ℚ) - 1) * w / 2,
             x.getD i 0 + (pymax x - pymin x) / ((x.length : ℚ) - 1) * w / 2,
             x.getD i 0 + (pymax x - pymin x) / ((x.length : ℚ) - 1) * w / 2,
             x.getD i 0 -
               (pymax x - pymin x) / ((x.length : ℚ) - 1) * w / 2]) ∧
    bars [1, 2, 3] [5, 7, 2] (4/5) 0 =
      some ([[3/5, 3/5, 7/5, 7/5, 3/5], [8/5, 8/5, 12/5, 12/5, 8/5],
             [13/5, 13/5, 17/5, 17/5, 13/5]],
            [[0, 5, 5, 0, 0], [0, 7, 7, 0, 0], [0, 2, 2, 0, 0]]) := by
  constructor
  · intro x y w mn h2 hlen
    have hne : x ≠ [] := by
      intro h; rw [h] at h2; simp at h2
    have hq : ¬ ((x.length : ℚ) - 1 = 0) := by
      intro h
      have : (x.length : ℚ) = 1 := by linarith
      have : x.length = 1 := by exact_mod_cast this
      omega
    obtain ⟨xb, yb, hloop, hxl, _, hcoord⟩ :=
      barsLoop_some ((pymax x - pymin x) / ((x.length : ℚ) - 1) * w / 2)
        mn x y hlen
    refine ⟨xb, yb, ?_, hxl, fun i hi => (hcoord i hi).1⟩
    simp only [bars, hne, hq, if_neg, if_false]
    simpa using hloop
  · norm_num [bars, barsLoop, pymax, pymin]
    intro h
    simp at h

/-- Witness for C6's general part at `bars([1,2,3], [5,7,2], 0.8, 0)`. -/
theorem bars_shared_half_width_witness :
    ∃ xb yb, bars [1, 2, 3] [5, 7, 2] (4/5) 0 = some (xb, yb) ∧
      xb.length = ([1, 2, 3] : List ℚ).length ∧
      ∀ i, i < ([1, 2, 3] : List ℚ).length →
        xb.getD i [] =
          [([1, 2, 3] : List ℚ).getD i 0 -
             (pymax [1, 2, 3] - pymin [1, 2, 3]) /
               ((([1, 2, 3] : List ℚ).length : ℚ) - 1) * (4/5) / 2,
           ([1, 2, 3] : List ℚ).getD i 0 -
             (pymax [1, 2, 3] - pymin [1, 2, 3]) /
               ((([1, 2, 3] : List ℚ).length : ℚ) - 1) * (4/5) / 2,
           ([1, 2, 3] : List ℚ).getD i 0 +
             (pymax [1, 2, 3] - pymin [1, 2, 3]) /
               ((([1, 2, 3] : List ℚ).length : ℚ) - 1) * (4/5) / 2,
           ([1, 2, 3] : List ℚ).getD i 0 +
             (pymax [1, 2, 3] - pymin [1, 2, 3]) /
               ((([1, 2, 3] : List ℚ).length : ℚ) - 1) * (4/5) / 2,
           ([1, 2, 3] : List ℚ).getD i 0 -
             (pymax [1, 2, 3] - pymin [1, 2, 3]) /
               ((([1, 2, 3] : List ℚ).length : ℚ) - 1) * (4/5) / 2] :=
  bars_shared_half_width.1 [1, 2, 3] [5, 7, 2] (4/5) 0 (by decide) (by decide)

/-- Counterexample to C5 as stated: `bars` does not reject
mismatched-length input — with 2 centers and 3 heights it still produces
polygon geometry, silently ignoring the extra height. -/
theorem bars_no_shape_rejection_counterexample :
    bars [1, 2] [5, 7, 9] 1 0 =
      some ([[1/2, 1/2, 3/2, 3/2, 1/2], [3/2, 3/2, 5/2, 5/2, 3/2]],
            [[0, 5, 5, 0, 0], [0, 7, 7, 0, 0]]) := by
  norm_num [bars, barsLoop, pymax, pymin]
  intro h
  simp at h

/-- Claim C5 as amended: `bars` performs no length check.  With at
least two centers, a height sequence at least as long still yields
polygon geometry for exactly `len(x)` bars (extra heights ignored),
while a shorter height sequence makes the call fail with an index
error during geometry generation — not a typed InvalidInputShape
rejection before computation. -/
theorem bars_no_length_check (x y : List ℚ) (w mn : ℚ)
    (h2 : 2 ≤ x.length) :
    (x.length ≤ y.length →
      ∃ xb yb, bars x y w mn = some (xb, yb) ∧ xb.length = x.length) ∧
    (y.length < x.length → bars x y w mn = none) := by
  have hne : x ≠ [] := by
    intro h; rw [h] at h2; simp at h2
  have hq : ¬ ((x.length : ℚ) - 1 = 0) := by
    intro h
    have : (x.length : ℚ) = 1 := by linarith
    have : x.length = 1 := by exact_mod_cast this
    omega
  constructor
  · intro hlen
    obtain ⟨xb, yb, hloop, hxl, _, _⟩ :=
      barsLoop_some ((pymax x - pymin x) / ((x.length : ℚ) - 1) * w / 2)
        mn x y hlen
    refine ⟨xb, yb, ?_, hxl⟩
    simp only [bars, hne, hq, if_neg, if_false]
    simpa using hloop
  · intro hlen
    simp only [bars, hne, hq, if_neg, if_false]
    simpa using barsLoop_none _ mn x y hlen

/-- Witness for the amended C5 at 2 centers with 3 heights and with 1
height. -/
theorem bars_no_length_check_witness :
    ((([1, 2] : List ℚ).length ≤ ([5, 7, 9] : List ℚ).length →
      ∃ xb yb, bars [1, 2] [5, 7, 9] 1 0 = some (xb, yb) ∧
        xb.length = ([1, 2] : List ℚ).length) ∧
     (([5, 7, 9] : List ℚ).length < ([1, 2] : List ℚ).length →
      bars [1, 2] [5, 7, 9] 1 0 = none)) ∧
    ((([1, 2] : List ℚ).length ≤ ([5] : List ℚ).length →
      ∃ xb yb, bars [1, 2] [5] 1 0 = some (xb, yb) ∧
        xb.length = ([1, 2] : List ℚ).length) ∧
     (([5] : List ℚ).length < ([1, 2] : List ℚ).length →
      bars [1, 2] [5] 1 0 = none)) :=
  ⟨bars_no_length_check [1, 2] [5, 7, 9] 1 0 (by decide),
   bars_no_length_check [1, 2] [5] 1 0 (by decide)⟩

/-! ### Histogram lemmas -/

theorem foldl_min_le_init (as : List ℚ) : ∀ acc : ℚ, as.foldl min acc ≤ acc := by
  induction as with
  | nil => intro acc; simp
  | cons a as ih =>
    intro acc
    exact le_trans (ih (min acc a)) (min_le_left acc a)

theorem foldl_min_le_mem (as : List ℚ) :
    ∀ (acc a : ℚ), a ∈ as → as.foldl min acc ≤ a := by
  induction as with
  | nil => intro acc a h; simp at h
  | cons b as ih =>
    intro acc a ha
    rcases List.mem_cons.mp ha with h | h
    · rw [h]
      exact le_trans (foldl_min_le_init as (min acc b)) (min_le_right acc b)
    · exact ih (min acc b) a h

theorem pymin_le (l : List ℚ) (a : ℚ) (ha : a ∈ l) : pymin l ≤ a := by
  cases l with
  | nil => simp at ha
  | cons b bs =>
    rcases List.mem_cons.mp ha with h | h
    · rw [h]
      exact foldl_min_le_init bs b
    · exact foldl_min_le_mem bs b a h

theorem init_le_foldl_max (as : List ℚ) : ∀ acc : ℚ, acc ≤ as.foldl max acc := by
  induction as with
  | nil => intro acc; simp
  | cons a as ih =>
    intro acc
    exact le_trans (le_max_left acc a) (ih (max acc a))

theorem mem_le_foldl_max (as : List ℚ) :
    ∀ (acc a : ℚ), a ∈ as → a ≤ as.foldl max acc := by
  induction as with
  | nil => intro acc a h; simp at h
  | cons b as ih =>
    intro acc a ha
    rcases List.mem_cons.mp ha with h | h
    · rw [h]
      exact le_trans (le_max_right acc b) (init_le_foldl_max as (max acc b))
    · exact ih (max acc b) a h

theorem le_pymax (l : List ℚ) (a : ℚ) (ha : a ∈ l) : a ≤ pymax l := by
  cases l with
  | nil => simp at ha
  | cons b bs =>
    rcases List.mem_cons.mp ha with h | h
    · rw [h]
      exact init_le_foldl_max bs b
    · exact mem_le_foldl_max bs b a h

theorem foldl_min_const (c : ℚ) (as : List ℚ) :
    ∀ acc, (∀ a ∈ as, a = c) → acc = c → as.foldl min acc = c := by
  induction as with
  | nil => intro acc _ h; exact h
  | cons a as ih =>
    intro acc hc hacc
    have ha : a = c := hc a (List.mem_cons_self a as)
    exact ih (min acc a)
      (fun b hb => hc b (List.mem_cons_of_mem a hb))
      (by rw [ha, hacc, min_self])

theorem foldl_max_const (c : ℚ) (as : List ℚ) :
    ∀ acc, (∀ a ∈ as, a = c) → acc = c → as.foldl max acc = c := by
  induction as with
  | nil => intro acc _ h; exact h
  | cons a as ih =>
    intro acc hc hacc
    have ha : a = c := hc a (List.mem_cons_self a as)
    exact ih (max acc a)
      (fun b hb => hc b (List.mem_cons_of_mem a hb))
      (by rw [ha, hacc, max_self])

theorem pymin_const (c : ℚ) (l : List ℚ) (hne : l ≠ [])
    (hc : ∀ a ∈ l, a = c) : pymin l = c := by
  cases l with
  | nil => exact absurd rfl hne
  | cons b bs =>
    exact foldl_min_const c bs b
      (fun a ha => hc a (List.mem_cons_of_mem b ha))
      (hc b (List.mem_cons_self b bs))

theorem pymax_const (c : ℚ) (l : List ℚ) (hne : l ≠ [])
    (hc : ∀ a ∈ l, a = c) : pymax l = c := by
  cases l with
  | nil => exact absurd rfl hne
  | cons b bs =>
    exact foldl_max_const c bs b
      (fun a ha => hc a (List.mem_cons_of_mem b ha))
      (hc b (List.mem_cons_self b bs))

theorem sum_set_getD_succ (l : List ℕ) :
    ∀ n, n < l.length → (l.set n (l.getD n 0 + 1)).sum = l.sum + 1 := by
  induction l with
  | nil => intro n h; simp at h
  | cons a as ih =>
    intro n h
    cases n with
    | zero => simp [List.getD_cons_zero, List.sum_cons]; omega
    | succ n =>
      have hn : n < as.length := by simpa using h
      simp only [List.getD_cons_succ, List.set_cons_succ, List.sum_cons,
        ih n hn]
      omega

theorem listIncr_of_range (l : List ℕ) (i : ℤ) (h0 : 0 ≤ i)
    (hl : i < (l.length : ℤ)) :
    ∃ l', listIncr l i = some l' ∧ l'.length = l.length ∧
      l'.sum = l.sum + 1 := by
  have hni : ¬ i < 0 := not_lt.mpr h0
  have htn : i.toNat < l.length := by omega
  refine ⟨l.set i.toNat (l.getD i.toNat 0 + 1), ?_, ?_, ?_⟩
  · simp only [listIncr, hni, if_false]
    rw [if_pos ⟨h0, hl⟩]
  · exact List.length_set l i.toNat _
  · exact sum_set_getD_succ l i.toNat htn

theorem histCount_some (idxs : List ℤ) :
    ∀ histy : List ℕ,
      (∀ i ∈ idxs, 0 ≤ i ∧ i < (histy.length : ℤ)) →
      ∃ h, histCount idxs histy = some h ∧ h.length = histy.length ∧
        h.sum = histy.sum + idxs.length := by
  induction idxs with
  | nil => intro histy _; exact ⟨histy, rfl, rfl, by simp⟩
  | cons i rest ih =>
    intro histy hb
    obtain ⟨hi0, hil⟩ := hb i (List.mem_cons_self i rest)
    obtain ⟨l', hinc, hlen, hsum⟩ := listIncr_of_range histy i hi0 hil
    obtain ⟨h, hcount, hl, hs⟩ := ih l' (fun j hj => by
      obtain ⟨a, b⟩ := hb j (List.mem_cons_of_mem i hj)
      exact ⟨a, by rw [hlen]; exact b⟩)
    refine ⟨h, ?_, by rw [hl, hlen], ?_⟩
    · simp [histCount, hinc, hcount]
    · rw [hs, hsum, List.length_cons]
      omega

theorem pyInt_bins_sub_one (bins : ℕ) (hb : 1 ≤ bins) :
    pyInt ((bins : ℚ) - 1) = (bins : ℤ) - 1 := by
  have hone : (1 : ℚ) ≤ (bins : ℚ) := by exact_mod_cast hb
  have hnn : ¬ ((bins : ℚ) - 1 < 0) := by
    rw [not_lt]
    linarith
  have h1 : ((bins : ℚ) - 1) = (((bins : ℤ) - 1 : ℤ) : ℚ) := by
    push_cast
    ring
  rw [pyInt, if_neg hnn, h1, Int.floor_intCast]

theorem pyInt_norm_bound (m M el : ℚ) (bins : ℕ) (hb : 1 ≤ bins)
    (hm : m ≤ el) (hM : el ≤ M) (hne : el ≠ M) :
    0 ≤ pyInt ((el - m) / (M - m) * (bins : ℚ)) ∧
      pyInt ((el - m) / (M - m) * (bins : ℚ)) < (bins : ℤ) := by
  have hlt : el < M := lt_of_le_of_ne hM hne
  have hmM : 0 < M - m := by linarith
  have hbq : (0 : ℚ) < (bins : ℚ) := by
    have : (1 : ℚ) ≤ (bins : ℚ) := by exact_mod_cast hb
    linarith
  have hv0 : 0 ≤ (el - m) / (M - m) * (bins : ℚ) := by
    apply mul_nonneg
    · apply div_nonneg <;> linarith
    · linarith
  have hv1 : (el - m) / (M - m) * (bins : ℚ) < (bins : ℚ) := by
    have hr : (el - m) / (M - m) < 1 := by
      rw [div_lt_one hmM]
      linarith
    calc (el - m) / (M - m) * (bins : ℚ)
        < 1 * (bins : ℚ) := mul_lt_mul_of_pos_right hr hbq
      _ = (bins : ℚ) := one_mul _
  have hnn : ¬ ((el - m) / (M - m) * (bins : ℚ) < 0) := not_lt.mpr hv0
  rw [pyInt, if_neg hnn]
  refine ⟨Int.floor_nonneg.mpr hv0, ?_⟩
  rw [Int.floor_lt]
  exact_mod_cast hv1

theorem histNorm_bounds (m M : ℚ) (bins : ℕ) (hb : 1 ≤ bins) :
    ∀ data : List ℚ, (∀ el ∈ data, m ≤ el) → (∀ el ∈ data, el ≤ M) →
      ∃ vals, histNorm m M bins data = some vals ∧
        vals.length = data.length ∧
        ∀ v ∈ vals, 0 ≤ pyInt v ∧ pyInt v < (bins : ℤ) := by
  intro data
  induction data with
  | nil => exact fun _ _ => ⟨[], rfl, rfl, by simp⟩
  | cons el rest ih =>
    intro hlo hhi
    obtain ⟨vals, hv, hlen, hbound⟩ :=
      ih (fun e he => hlo e (List.mem_cons_of_mem el he))
        (fun e he => hhi e (List.mem_cons_of_mem el he))
    by_cases he : el = M
    · refine ⟨((bins : ℚ) - 1) :: vals, ?_, by simp [hlen], ?_⟩
      · simp [histNorm, he, hv]
      · intro v hvm
        rcases List.mem_cons.mp hvm with h | h
        · rw [h, pyInt_bins_sub_one bins hb]
          omega
        · exact hbound v h
    · have hM0 : ¬ (M - m = 0) := by
        have h1 : m ≤ el := hlo el (List.mem_cons_self el rest)
        have h2 : el ≤ M := hhi el (List.mem_cons_self el rest)
        have : el < M := lt_of_le_of_ne h2 he
        intro hz
        have : M = m := by linarith
        linarith
      refine ⟨((el - m) / (M - m) * (bins : ℚ)) :: vals, ?_,
        by simp [hlen], ?_⟩
      · simp [histNorm, he, hM0, hv]
      · intro v hvm
        rcases List.mem_cons.mp hvm with h | h
        · rw [h]
          exact pyInt_norm_bound m M el bins hb
            (hlo el (List.mem_cons_self el rest))
            (hhi el (List.mem_cons_self el rest)) he
        · exact hbound v h

/-- Claim C3: for non-empty samples and `bins ≥ 1`, `hist_data`
succeeds, its counts have length `bins`, and the counts sum to the
number of samples (every sample lands in exactly one bucket, the
maximum being forced into bucket `bins - 1`). -/
theorem hist_data_count_conservation (data : List ℚ) (bins : ℕ)
    (hne : data ≠ []) (hb : 1 ≤ bins) :
    ∃ histx histy, hist_data data bins = some (histx, histy) ∧
      histy.sum = data.length ∧ histy.length = bins := by
  obtain ⟨vals, hv, hlen, hbound⟩ :=
    histNorm_bounds (pymin data) (pymax data) bins hb data
      (fun el he => pymin_le data el he)
      (fun el he => le_pymax data el he)
  obtain ⟨histy, hc, hclen, hcsum⟩ :=
    histCount_some (vals.map pyInt) (List.replicate bins 0) (by
      intro i hi
      obtain ⟨v, hvmem, hveq⟩ := List.mem_map.mp hi
      rw [List.length_replicate]
      exact hveq ▸ hbound v hvmem)
  refine ⟨linspace (pymin data) (pymax data) bins, histy, ?_, ?_, ?_⟩
  · unfold hist_data
    rw [if_neg hne]
    simp only [hv, hc]
  · rw [hcsum, List.length_map, hlen]
    simp
  · rw [hclen, List.length_replicate]

/-- Witness for C3 at `hist_data([1,2,2,3], 2)`. -/
theorem hist_data_count_conservation_witness :
    ∃ histx histy, hist_data [1, 2, 2, 3] 2 = some (histx, histy) ∧
      histy.sum = ([1, 2, 2, 3] : List ℚ).length ∧ histy.length = 2 :=
  hist_data_count_conservation [1, 2, 2, 3] 2 (by decide) (by decide)

theorem histNorm_const (c : ℚ) (bins : ℕ) :
    ∀ data : List ℚ, (∀ el ∈ data, el = c) →
      histNorm c c bins data =
        some (List.replicate data.length ((bins : ℚ) - 1)) := by
  intro data
  induction data with
  | nil => intro _; rfl
  | cons el rest ih =>
    intro hc
    have he : el = c := hc el (List.mem_cons_self el rest)
    have hr := ih (fun e hee => hc e (List.mem_cons_of_mem el hee))
    simp [histNorm, he, hr, List.replicate_succ]

theorem getD_append_len (L : List ℕ) (k : ℕ) :
    (L ++ [k]).getD L.length 0 = k := by
  induction L with
  | nil => rfl
  | cons a as ih => simp [ih]

theorem set_append_len (L : List ℕ) (k v : ℕ) :
    (L ++ [k]).set L.length v = L ++ [v] := by
  induction L with
  | nil => rfl
  | cons a as ih =>
    simp only [List.cons_append, List.length_cons, List.set_cons_succ, ih]

theorem listIncr_append_len (L : List ℕ) (k : ℕ) :
    listIncr (L ++ [k]) (L.length : ℤ) = some (L ++ [k + 1]) := by
  have hni : ¬ ((L.length : ℤ) < 0) := by omega
  have hcond : 0 ≤ (L.length : ℤ) ∧
      (L.length : ℤ) < ((L ++ [k]).length : ℤ) := by
    constructor
    · omega
    · simp [List.length_append]
  simp only [listIncr, hni, if_false]
  rw [if_pos hcond, Int.toNat_natCast, getD_append_len, set_append_len]

theorem histCount_replicate_last (n : ℕ) :
    ∀ (L : List ℕ) (k : ℕ),
      histCount (List.replicate n (L.length : ℤ)) (L ++ [k]) =
        some (L ++ [k + n]) := by
  induction n with
  | zero => intro L k; simp [histCount]
  | succ n ih =>
    intro L k
    have hstep := listIncr_append_len L k
    have hrest := ih L (k + 1)
    have harith : k + 1 + n = k + (n + 1) := by omega
    rw [harith] at hrest
    simp only [List.replicate_succ, histCount, hstep, hrest]

theorem hist_data_const_eq (data : List ℚ) (bins : ℕ) (c : ℚ)
    (hne : data ≠ []) (hb : 1 ≤ bins) (hc : ∀ el ∈ data, el = c) :
    hist_data data bins =
      some (linspace c c bins,
            List.replicate (bins - 1) 0 ++ [data.length]) := by
  have hmin : pymin data = c := pymin_const c data hne hc
  have hmax : pymax data = c := pymax_const c data hne hc
  have hd2 : (List.replicate data.length ((bins : ℚ) - 1)).map pyInt
      = List.replicate data.length ((bins : ℤ) - 1) := by
    rw [List.map_replicate, pyInt_bins_sub_one bins hb]
  have hrep : List.replicate bins (0 : ℕ)
      = List.replicate (bins - 1) 0 ++ [0] := by
    conv_lhs => rw [show bins = (bins - 1) + 1 by omega]
    rw [List.replicate_succ']
  have hidx : ((bins : ℤ) - 1)
      = ((List.replicate (bins - 1) (0 : ℕ)).length : ℤ) := by
    simp
    omega
  have hfinal := histCount_replicate_last data.length
    (List.replicate (bins - 1) 0) 0
  unfold hist_data
  rw [if_neg hne]
  simp only [hmin, hmax]
  rw [histNorm_const c bins data hc]
  simp only [hd2, hrep, hidx, hfinal]
  simp

/-- Claim C10: on all-identical samples and `bins ≥ 1`, `hist_data`
returns successfully (the division branch is never evaluated because
every sample equals the maximum): every sample is placed in the last
bucket `bins - 1`, whose count is the sample count, and every other
bucket count is 0. -/
theorem hist_data_identical_last_bucket (data : List ℚ) (bins : ℕ)
    (c : ℚ) (hne : data ≠ []) (hb : 1 ≤ bins)
    (hc : ∀ el ∈ data, el = c) :
    ∃ histx, hist_data data bins =
      some (histx, List.replicate (bins - 1) 0 ++ [data.length]) :=
  ⟨linspace c c bins, hist_data_const_eq data bins c hne hb hc⟩

/-- Witness for C10 at `hist_data([1,1,1,1], 4)`. -/
theorem hist_data_identical_last_bucket_witness :
    ∃ histx, hist_data [1, 1, 1, 1] 4 =
      some (histx, List.replicate 3 0 ++ [4]) :=
  hist_data_identical_last_bucket [1, 1, 1, 1] 4 1 (by decide) (by decide)
    (by decide)

/-- Counterexample to C4 as stated: `hist_data` does not reach a
divide-by-zero on a degenerate (all-identical) sample sequence — on
`[1,1,1,1]` with 4 bins it returns successfully, with all four samples
counted in the last bucket. -/
theorem hist_data_degenerate_counterexample :
    hist_data [1, 1, 1, 1] 4 = some ([1, 1, 1, 1], [0, 0, 0, 4]) := by
  rw [hist_data_const_eq [1, 1, 1, 1] 4 1 (by decide) (by decide)
    (by decide)]
  norm_num [linspace, List.range_succ]
  rfl

/-- Claim C4 as amended: on a non-empty all-identical sample
sequence the normalisation's division is never evaluated (the
`el != M` guard fails for every sample), so `hist_data` does not fail:
it returns a result. -/
theorem hist_data_degenerate_no_failure (data : List ℚ) (bins : ℕ)
    (c : ℚ) (hne : data ≠ []) (hb : 1 ≤ bins)
    (hc : ∀ el ∈ data, el = c) :
    (hist_data data bins).isSome = true := by
  rw [hist_data_const_eq data bins c hne hb hc]
  rfl

/-- Witness for the amended C4 at `hist_data([2,2], 10)`. -/
theorem hist_data_degenerate_no_failure_witness :
    (hist_data [2, 2] 10).isSome = true :=
  hist_data_degenerate_no_failure [2, 2] 10 2 (by decide) (by decide)
    (by decide)

end Plotext
